import Mathlib

set_option linter.unusedSectionVars false

/-!
Shallow embedding of `lrucache` (github.com/chanxuehong/lrucache),
file `lru_cache.go`.

The Go cache keeps two coupled structures:
  * `lruList : *list.List` of `*payload` (front = most recently touched);
  * `itemMap : map[interface{}]*list.Element` from key to list element.
List elements are heap cells addressed by pointers; we model a pointer by a
`Nat` identifier (`Elem.id`), allocated from a counter `nextId`.  The Go map
is modelled by an association list `List (K × Nat)` from key to element id;
Go map writes overwrite the unique binding of the key, deletes remove it.
Go's `int` is modelled by `Int`; list lengths coerce from `Nat`.
Errors (`ErrNotFound`, `ErrNotStored`) are modelled by `CacheError`;
a Go `err == nil` result is `none`.  The `sync.Mutex` only serialises the
operations and has no sequential meaning, so it is not modelled.
-/

namespace Lrucache

/-- The two sentinel errors of the package: `ErrNotFound`, `ErrNotStored`. -/
inductive CacheError where
  | notFound
  | notStored
deriving DecidableEq

/-- A `list.Element` holding a `*payload`: `id` models the element's pointer
identity, `key`/`val` model the payload's `Key`/`Value` fields. -/
structure Elem (K V : Type) where
  id : Nat
  key : K
  val : V
deriving DecidableEq

/-- The `Cache` struct: configured `size`, the recency list front-to-back,
the key index, and the allocation counter for element identities. -/
structure Cache (K V : Type) where
  size : Int
  lruList : List (Elem K V)
  itemMap : List (K × Nat)
  nextId : Nat
deriving DecidableEq

variable {K V : Type} [DecidableEq K]

/-- Go map read `itemMap[key]` (with its `hit` flag as `Option`). -/
def mapGet (m : List (K × Nat)) (k : K) : Option Nat :=
  (m.find? (fun p => decide (p.1 = k))).map (fun p => p.2)

/-- Go map `delete(itemMap, key)`: the map holds at most one binding per
key, so removing every binding of `k` removes exactly that one. -/
def mapDelete (m : List (K × Nat)) (k : K) : List (K × Nat) :=
  m.filter (fun p => decide (p.1 ≠ k))

/-- Go map write `itemMap[key] = e`: overwrite the binding of `key`. -/
def mapSet (m : List (K × Nat)) (k : K) (i : Nat) : List (K × Nat) :=
  (k, i) :: mapDelete m k

/-- `container/list` `Remove(e)`: `e` is a cell of the list, and cell ids
are unique in a well-formed cache, so filtering out its id removes exactly
the cell `e`. -/
def listRemove (l : List (Elem K V)) (i : Nat) : List (Elem K V) :=
  l.filter (fun e => decide (e.id ≠ i))

/-- `container/list` `MoveToFront(e)` for the cell with id `i`. -/
def moveToFront (l : List (Elem K V)) (i : Nat) : List (Elem K V) :=
  match l.find? (fun e => decide (e.id = i)) with
  | some e => e :: listRemove l i
  | none => l

/-- Pointer write `payload.Value = value` through the cell with id `i`. -/
def setVal (l : List (Elem K V)) (i : Nat) (v : V) : List (Elem K V) :=
  l.map (fun e => if e.id = i then { e with val := v } else e)

/-- Pointer writes `payload.Key = key; payload.Value = value` through the
cell with id `i` (the eviction-reuse path of `add`). -/
def setPayload (l : List (Elem K V)) (i : Nat) (k : K) (v : V) :
    List (Elem K V) :=
  l.map (fun e => if e.id = i then { e with key := k, val := v } else e)

/-- `New(size)`: panics when `size <= 0` (modelled by `none`), otherwise an
empty cache of that size. -/
def New (K V : Type) (size : Int) : Option (Cache K V) :=
  if size ≤ 0 then none
  else some { size := size, lruList := [], itemMap := [], nextId := 0 }

/-- `Size()`. -/
def Size (c : Cache K V) : Int :=
  c.size

/-- `Len()`. -/
def Len (c : Cache K V) : Int :=
  (c.lruList.length : Int)

/-- `Purge()`: fresh list and map, same size. -/
def Purge (c : Cache K V) : Cache K V :=
  { c with lruList := [], itemMap := [] }

/-- Private `add(key, value)`: caller guarantees `key` is absent.  At
capacity (`lruList.Len() >= size`) the back cell is reused: its old key is
deleted from the map, its payload overwritten, the map repointed, and the
cell moved to front.  Otherwise a fresh cell is pushed at the front.  (In Go
the back cell cannot be nil because `size > 0`; the impossible branch
returns the cache unchanged.)  `add` always returns a nil error. -/
def add (c : Cache K V) (k : K) (v : V) : Cache K V :=
  if c.size ≤ (c.lruList.length : Int) then
    match c.lruList.getLast? with
    | some e =>
        { c with
          itemMap := mapSet (mapDelete c.itemMap e.key) k e.id,
          lruList := moveToFront (setPayload c.lruList e.id k v) e.id }
    | none => c
  else
    { c with
      itemMap := mapSet c.itemMap k c.nextId,
      lruList := ⟨c.nextId, k, v⟩ :: c.lruList,
      nextId := c.nextId + 1 }

/-- Private `remove(e)`: detach the cell `e` from list and map. -/
def remove (c : Cache K V) (e : Elem K V) : Cache K V :=
  { c with
    itemMap := mapDelete c.itemMap e.key,
    lruList := listRemove c.lruList e.id }

/-- One iteration of the `SetSize` shrink loop: `remove(lruList.Back())`. -/
def removeBack (c : Cache K V) : Cache K V :=
  match c.lruList.getLast? with
  | some e => remove c e
  | none => c

/-- The `SetSize` shrink loop, run `n` times. -/
def removeBackN (c : Cache K V) : Nat → Cache K V
  | 0 => c
  | n + 1 => removeBackN (removeBack c) n

/-- `SetSize(size)`: no-op when `size <= 0`; otherwise evict from the back
while the list is longer than `size`, then record the new size. -/
def SetSize (c : Cache K V) (size : Int) : Cache K V :=
  if size ≤ 0 then c
  else
    { removeBackN c ((c.lruList.length : Int) - size).toNat with size := size }

/-- `Add(key, value)`: `ErrNotStored` on a hit, else `add`. -/
def Add (c : Cache K V) (k : K) (v : V) : Option CacheError × Cache K V :=
  match mapGet c.itemMap k with
  | some _ => (some .notStored, c)
  | none => (none, add c k v)

/-- `Set(key, value)`: on a hit overwrite the payload's value and move the
cell to the front (the map is untouched); else `add`.  Never errs. -/
def Set (c : Cache K V) (k : K) (v : V) : Option CacheError × Cache K V :=
  match mapGet c.itemMap k with
  | some i => (none, { c with lruList := moveToFront (setVal c.lruList i v) i })
  | none => (none, add c k v)

/-- `Get(key)`: on a hit move the cell to the front and return its value
(the value read `e.Value.(*payload).Value` is the dereference of the map's
element pointer, modelled by looking the id up in the list; a dangling id is
impossible in a well-formed cache, that branch returns no value).  On a miss
`ErrNotFound`. -/
def Get (c : Cache K V) (k : K) :
    Option V × Option CacheError × Cache K V :=
  match mapGet c.itemMap k with
  | some i =>
      match c.lruList.find? (fun e => decide (e.id = i)) with
      | some e => (some e.val, none, { c with lruList := moveToFront c.lruList i })
      | none => (none, none, c)
  | none => (none, some .notFound, c)

/-- `Remove(key)`: on a hit `remove` the cell the map points to; on a miss
`ErrNotFound` (dangling-id branch as in `Get`). -/
def Remove (c : Cache K V) (k : K) : Option CacheError × Cache K V :=
  match mapGet c.itemMap k with
  | some i =>
      match c.lruList.find? (fun e => decide (e.id = i)) with
      | some e => (none, remove c e)
      | none => (none, c)
  | none => (some .notFound, c)

/-- A public mutating operation of the cache. -/
inductive Op (K V : Type) where
  | set (k : K) (v : V)
  | addOp (k : K) (v : V)
  | get (k : K)
  | removeOp (k : K)
  | setSize (n : Int)
  | purge
deriving DecidableEq

/-- Apply one operation (discarding returned values). -/
def applyOp (c : Cache K V) : Op K V → Cache K V
  | .set k v => (Set c k v).2
  | .addOp k v => (Add c k v).2
  | .get k => (Get c k).2.2
  | .removeOp k => (Remove c k).2
  | .setSize n => SetSize c n
  | .purge => Purge c

/-- Run a sequence of operations. -/
def run (c : Cache K V) (ops : List (Op K V)) : Cache K V :=
  ops.foldl applyOp c

/-- A state is reachable when some sequence of public operations produces
it from a freshly constructed cache. -/
def Reachable (c : Cache K V) : Prop :=
  ∃ (n : Int) (c₀ : Cache K V) (ops : List (Op K V)),
    New K V n = some c₀ ∧ c = run c₀ ops

/-- The projection of a list cell that the index stores: key and identity. -/
def proj (e : Elem K V) : K × Nat :=
  (e.key, e.id)

/-! ### The structural invariant of a cache

These are the "Principle" comments of `lru_cache.go` (map and list are in
bijection via the stored keys/pointers), together with the facts that cell
ids and keys are distinct, the size is positive, the list never exceeds the
size, and ids are below the allocation counter. -/

structure WF (c : Cache K V) : Prop where
  size_pos : 1 ≤ c.size
  ids_nodup : (c.lruList.map Elem.id).Nodup
  keys_nodup : (c.lruList.map Elem.key).Nodup
  map_perm : c.itemMap.Perm (c.lruList.map proj)
  len_le : (c.lruList.length : Int) ≤ c.size
  ids_lt : ∀ e ∈ c.lruList, e.id < c.nextId

/-- A concrete size-2 cache over `Nat` keys and `Int` values (the result of
`New(2)`), used to instantiate the verified statements. -/
def initCache2 : Cache Nat Int :=
  { size := 2, lruList := [], itemMap := [], nextId := 0 }

/-- A concrete reachable state at full capacity: keys `0 ↦ 10`, `1 ↦ 20`. -/
def fullCache2 : Cache Nat Int :=
  run initCache2 [.set 0 10, .set 1 20]

/-! ### Association-list (Go map) lemmas -/

theorem mapGet_eq_some_imp_mem {m : List (K × Nat)} {k : K} {i : Nat}
    (h : mapGet m k = some i) : (k, i) ∈ m := by
  unfold mapGet at h
  rcases ho : m.find? (fun p => decide (p.1 = k)) with _ | p
  · rw [ho] at h; simp at h
  · rw [ho] at h
    simp only [Option.map_some', Option.some.injEq] at h
    have hp := List.find?_some ho
    have hm := List.mem_of_find?_eq_some ho
    simp only [decide_eq_true_eq] at hp
    have : p = (k, i) := by
      cases p with
      | mk a b => simp_all
    rw [← this]; exact hm

theorem mapGet_eq_none_iff {m : List (K × Nat)} {k : K} :
    mapGet m k = none ↔ ∀ p ∈ m, p.1 ≠ k := by
  unfold mapGet
  simp [List.find?_eq_none]

theorem mapGet_eq_some_of_mem {m : List (K × Nat)} {k : K} {i : Nat}
    (hnd : (m.map Prod.fst).Nodup) (hm : (k, i) ∈ m) :
    mapGet m k = some i := by
  induction m with
  | nil => simp at hm
  | cons p t ih =>
      simp only [List.map_cons, List.nodup_cons] at hnd
      rcases List.mem_cons.mp hm with h | h
      · subst h
        unfold mapGet
        rw [List.find?_cons_of_pos _ (by simp)]
        rfl
      · have hne : p.1 ≠ k := by
          intro hk
          exact hnd.1 (hk ▸ (List.mem_map.mpr ⟨(k, i), h, rfl⟩))
        unfold mapGet
        rw [List.find?_cons_of_neg _ (by simpa using hne)]
        exact ih hnd.2 h

theorem mapGet_mapDelete_self {m : List (K × Nat)} {k : K} :
    mapGet (mapDelete m k) k = none := by
  rw [mapGet_eq_none_iff]
  intro p hp
  have := (List.mem_filter.mp hp).2
  simpa using this

theorem mapDelete_eq_self {m : List (K × Nat)} {k : K}
    (h : ∀ p ∈ m, p.1 ≠ k) : mapDelete m k = m := by
  unfold mapDelete
  rw [List.filter_eq_self]
  intro p hp
  simpa using h p hp

/-! ### Recency-list lemmas -/

theorem find?_id_eq_some {l : List (Elem K V)} {e : Elem K V}
    (hnd : (l.map Elem.id).Nodup) (he : e ∈ l) :
    l.find? (fun x => decide (x.id = e.id)) = some e := by
  induction l with
  | nil => simp at he
  | cons a t ih =>
      simp only [List.map_cons, List.nodup_cons] at hnd
      rcases List.mem_cons.mp he with h | h
      · subst h
        rw [List.find?_cons_of_pos _ (by simp)]
      · have hne : a.id ≠ e.id := by
          intro hk
          exact hnd.1 (hk ▸ (List.mem_map.mpr ⟨e, h, rfl⟩))
        rw [List.find?_cons_of_neg _ (by simpa using hne)]
        exact ih hnd.2 h

theorem listRemove_eq_self {l : List (Elem K V)} {i : Nat}
    (h : ∀ x ∈ l, x.id ≠ i) : listRemove l i = l := by
  unfold listRemove
  rw [List.filter_eq_self]
  intro x hx
  simpa using h x hx

theorem moveToFront_eq {l : List (Elem K V)} {e : Elem K V}
    (hnd : (l.map Elem.id).Nodup) (he : e ∈ l) :
    moveToFront l e.id = e :: listRemove l e.id := by
  unfold moveToFront
  rw [find?_id_eq_some hnd he]

theorem perm_cons_listRemove {l : List (Elem K V)} {e : Elem K V}
    (hnd : (l.map Elem.id).Nodup) (he : e ∈ l) :
    l.Perm (e :: listRemove l e.id) := by
  induction l with
  | nil => simp at he
  | cons a t ih =>
      simp only [List.map_cons, List.nodup_cons] at hnd
      rcases List.mem_cons.mp he with h | h
      · subst h
        unfold listRemove
        rw [List.filter_cons_of_neg (by simp)]
        have ht : t.filter (fun x => decide (x.id ≠ e.id)) = t := by
          rw [List.filter_eq_self]
          intro x hx
          have hxa : x.id ≠ e.id := by
            intro hk
            exact hnd.1 (hk ▸ (List.mem_map.mpr ⟨x, hx, rfl⟩))
          simpa using hxa
        rw [ht]
      · have hne : a.id ≠ e.id := by
          intro hk
          exact hnd.1 (hk ▸ (List.mem_map.mpr ⟨e, h, rfl⟩))
        have hperm := ih hnd.2 h
        unfold listRemove
        rw [List.filter_cons_of_pos (by simpa using hne)]
        exact (hperm.cons a).trans (List.Perm.swap e a _)

theorem concat_map_nodup {α β : Type} {f : α → β} {t : List α} {a : α}
    (hnd : ((t ++ [a]).map f).Nodup) :
    f a ∉ t.map f ∧ (t.map f).Nodup := by
  rw [List.map_append] at hnd
  have h := (List.perm_append_singleton _ _).nodup_iff.mp hnd
  exact List.nodup_cons.mp h

theorem listRemove_concat {t : List (Elem K V)} {e : Elem K V}
    (hnd : ((t ++ [e]).map Elem.id).Nodup) :
    listRemove (t ++ [e]) e.id = t := by
  obtain ⟨hni, _⟩ := concat_map_nodup hnd
  unfold listRemove
  rw [List.filter_append]
  have h1 : t.filter (fun x => decide (x.id ≠ e.id)) = t := by
    rw [List.filter_eq_self]
    intro x hx
    have : x.id ≠ e.id := fun hk => hni (hk ▸ List.mem_map.mpr ⟨x, hx, rfl⟩)
    simpa using this
  have h2 : [e].filter (fun x => decide (x.id ≠ e.id)) = [] := by simp
  rw [h1, h2, List.append_nil]

theorem setPayload_concat {t : List (Elem K V)} {e : Elem K V} {k : K} {v : V}
    (h : e.id ∉ t.map Elem.id) :
    setPayload (t ++ [e]) e.id k v = t ++ [{ e with key := k, val := v }] := by
  unfold setPayload
  rw [List.map_append]
  congr 1
  · have hc : ∀ x ∈ t, (if x.id = e.id then { x with key := k, val := v } else x) = x := by
      intro x hx
      have : x.id ≠ e.id := fun hk => h (hk ▸ List.mem_map.mpr ⟨x, hx, rfl⟩)
      rw [if_neg this]
    rw [List.map_congr_left hc]
    exact List.map_id' t
  · simp

/-- The eviction-reuse branch of `add`: with the list decomposed as
`t ++ [e]` and distinct cell ids, the back cell is rewritten to `(k, v)` and
moved to the front. -/
theorem add_full {c : Cache K V} (k : K) (v : V) {t : List (Elem K V)}
    {e : Elem K V} (hl : c.lruList = t ++ [e])
    (hnd : (c.lruList.map Elem.id).Nodup)
    (hfull : c.size ≤ (c.lruList.length : Int)) :
    add c k v = { c with
      itemMap := mapSet (mapDelete c.itemMap e.key) k e.id,
      lruList := ⟨e.id, k, v⟩ :: t } := by
  rw [hl] at hnd
  obtain ⟨hni, _⟩ := concat_map_nodup hnd
  unfold add
  rw [if_pos hfull, hl, List.getLast?_concat]
  have hsp : setPayload (t ++ [e]) e.id k v = t ++ [{ e with key := k, val := v }] :=
    setPayload_concat hni
  have hnd2 : ((t ++ [{ e with key := k, val := v }]).map Elem.id).Nodup := by
    simpa using hnd
  have hmem : ({ e with key := k, val := v } : Elem K V) ∈ t ++ [{ e with key := k, val := v }] := by
    simp
  have hmv := moveToFront_eq hnd2 hmem
  simp only [hsp]
  rw [hmv, listRemove_concat hnd2]

/-- The push-front branch of `add`: below capacity a fresh cell is allocated
at the front. -/
theorem add_notfull {c : Cache K V} (k : K) (v : V)
    (h : (c.lruList.length : Int) < c.size) :
    add c k v = { c with
      itemMap := mapSet c.itemMap k c.nextId,
      lruList := ⟨c.nextId, k, v⟩ :: c.lruList,
      nextId := c.nextId + 1 } := by
  unfold add
  rw [if_neg (by omega)]

theorem WF.map_keys_nodup {c : Cache K V} (h : WF c) :
    (c.itemMap.map Prod.fst).Nodup := by
  have hperm := h.map_perm.map Prod.fst
  rw [List.map_map] at hperm
  have he : (Prod.fst ∘ (proj (K := K) (V := V))) = Elem.key := rfl
  rw [he] at hperm
  exact hperm.nodup_iff.mpr h.keys_nodup

theorem WF.len_map {c : Cache K V} (h : WF c) :
    c.itemMap.length = c.lruList.length := by
  have := h.map_perm.length_eq
  rwa [List.length_map] at this

theorem WF.mem_map_iff {c : Cache K V} (h : WF c) {k : K} {i : Nat} :
    (k, i) ∈ c.itemMap ↔ ∃ e ∈ c.lruList, e.key = k ∧ e.id = i := by
  rw [h.map_perm.mem_iff, List.mem_map]
  constructor
  · rintro ⟨e, he, hpe⟩
    refine ⟨e, he, ?_, ?_⟩
    · exact congrArg Prod.fst hpe
    · exact congrArg Prod.snd hpe
  · rintro ⟨e, he, hk, hi⟩
    exact ⟨e, he, by rw [proj, hk, hi]⟩

theorem WF.mapGet_some_iff {c : Cache K V} (h : WF c) {k : K} {i : Nat} :
    mapGet c.itemMap k = some i ↔ ∃ e ∈ c.lruList, e.key = k ∧ e.id = i :=
  ⟨fun hg => h.mem_map_iff.mp (mapGet_eq_some_imp_mem hg),
   fun he => mapGet_eq_some_of_mem h.map_keys_nodup (h.mem_map_iff.mpr he)⟩

theorem WF.mapGet_none_iff {c : Cache K V} (h : WF c) {k : K} :
    mapGet c.itemMap k = none ↔ ∀ e ∈ c.lruList, e.key ≠ k := by
  rw [mapGet_eq_none_iff]
  constructor
  · intro hp e he hk
    exact hp (proj e) (h.map_perm.mem_iff.mpr (List.mem_map_of_mem _ he)) hk
  · intro hl p hp hk
    obtain ⟨e, he, hpe⟩ := List.mem_map.mp (h.map_perm.mem_iff.mp hp)
    exact hl e he (by rw [← hk, ← hpe]; rfl)

theorem WF.key_inj {c : Cache K V} (h : WF c) {e₁ e₂ : Elem K V}
    (h1 : e₁ ∈ c.lruList) (h2 : e₂ ∈ c.lruList) (hk : e₁.key = e₂.key) :
    e₁ = e₂ :=
  List.inj_on_of_nodup_map h.keys_nodup h1 h2 hk

theorem WF.id_inj {c : Cache K V} (h : WF c) {e₁ e₂ : Elem K V}
    (h1 : e₁ ∈ c.lruList) (h2 : e₂ ∈ c.lruList) (hk : e₁.id = e₂.id) :
    e₁ = e₂ :=
  List.inj_on_of_nodup_map h.ids_nodup h1 h2 hk

/-- Replacing the list by one with a permuted `(key, id)` projection (and
untouched map) preserves the invariant. -/
theorem WF.replace_list {c : Cache K V} (h : WF c) {l₂ : List (Elem K V)}
    (hp : (l₂.map proj).Perm (c.lruList.map proj)) :
    WF { c with lruList := l₂ } := by
  have hid : ∀ (l : List (Elem K V)), (l.map proj).map Prod.snd = l.map Elem.id := by
    intro l
    rw [List.map_map]
    rfl
  have hkey : ∀ (l : List (Elem K V)), (l.map proj).map Prod.fst = l.map Elem.key := by
    intro l
    rw [List.map_map]
    rfl
  have hlen : l₂.length = c.lruList.length := by
    have := hp.length_eq
    rwa [List.length_map, List.length_map] at this
  refine ⟨h.size_pos, ?_, ?_, ?_, ?_, ?_⟩
  · have := hp.map Prod.snd
    rw [hid, hid] at this
    exact this.nodup_iff.mpr h.ids_nodup
  · have := hp.map Prod.fst
    rw [hkey, hkey] at this
    exact this.nodup_iff.mpr h.keys_nodup
  · exact h.map_perm.trans hp.symm
  · show (l₂.length : Int) ≤ c.size
    rw [hlen]
    exact h.len_le
  · intro e he
    have hm : proj e ∈ c.lruList.map proj := hp.subset (List.mem_map_of_mem _ he)
    obtain ⟨x, hx, hpe⟩ := List.mem_map.mp hm
    have : x.id = e.id := congrArg Prod.snd hpe
    show e.id < c.nextId
    rw [← this]
    exact h.ids_lt x hx

/-! ### Per-operation characterisations -/

theorem setVal_map_id {l : List (Elem K V)} {i : Nat} {v : V} :
    (setVal l i v).map Elem.id = l.map Elem.id := by
  unfold setVal
  rw [List.map_map]
  apply List.map_congr_left
  intro a _
  by_cases h : a.id = i <;> simp [Function.comp, h]

theorem listRemove_setVal {l : List (Elem K V)} {i : Nat} {v : V} :
    listRemove (setVal l i v) i = listRemove l i := by
  unfold listRemove setVal
  rw [List.filter_map]
  have hp : ((fun e => decide (e.id ≠ i)) ∘ fun e : Elem K V =>
      if e.id = i then { e with val := v } else e)
      = fun e : Elem K V => decide (e.id ≠ i) := by
    funext x
    by_cases h : x.id = i <;> simp [Function.comp, h]
  rw [hp]
  have hcong : ∀ x ∈ l.filter (fun e : Elem K V => decide (e.id ≠ i)),
      (if x.id = i then { x with val := v } else x) = x := by
    intro x hx
    have hne := (List.mem_filter.mp hx).2
    rw [if_neg (by simpa using hne)]
  rw [List.map_congr_left hcong, List.map_id']

theorem Set_hit {c : Cache K V} {k : K} {v : V} {e : Elem K V}
    (h : WF c) (he : e ∈ c.lruList) (hk : e.key = k) :
    Set c k v = (none, { c with
      lruList := { e with val := v } :: listRemove c.lruList e.id }) := by
  have hg : mapGet c.itemMap k = some e.id := h.mapGet_some_iff.mpr ⟨e, he, hk, rfl⟩
  unfold Set
  rw [hg]
  have hfe : (fun x => if x.id = e.id then { x with val := v } else x) e
      = ({ e with val := v } : Elem K V) := by simp
  have hmem : ({ e with val := v } : Elem K V) ∈ setVal c.lruList e.id v :=
    hfe ▸ List.mem_map_of_mem _ he
  have hnd2 : ((setVal c.lruList e.id v).map Elem.id).Nodup := by
    rw [setVal_map_id]
    exact h.ids_nodup
  have hmv := moveToFront_eq hnd2 hmem
  have hid : ({ e with val := v } : Elem K V).id = e.id := rfl
  rw [hid] at hmv
  show (none, { c with lruList := moveToFront (setVal c.lruList e.id v) e.id })
      = (none, { c with
          lruList := { e with val := v } :: listRemove c.lruList e.id })
  rw [hmv, listRemove_setVal]

theorem Set_miss {c : Cache K V} {k : K} (v : V)
    (hm : mapGet c.itemMap k = none) :
    Set c k v = (none, add c k v) := by
  unfold Set
  rw [hm]

theorem Get_hit {c : Cache K V} {k : K} {e : Elem K V}
    (h : WF c) (he : e ∈ c.lruList) (hk : e.key = k) :
    Get c k = (some e.val, none,
      { c with lruList := e :: listRemove c.lruList e.id }) := by
  have hg : mapGet c.itemMap k = some e.id := h.mapGet_some_iff.mpr ⟨e, he, hk, rfl⟩
  unfold Get
  rw [hg]
  show (match c.lruList.find? (fun x => decide (x.id = e.id)) with
    | some x => (some x.val, none,
        { c with lruList := moveToFront c.lruList e.id })
    | none => (none, none, c))
      = (some e.val, none, { c with lruList := e :: listRemove c.lruList e.id })
  rw [find?_id_eq_some h.ids_nodup he, moveToFront_eq h.ids_nodup he]

theorem Get_miss {c : Cache K V} {k : K}
    (h : WF c) (hm : ∀ e ∈ c.lruList, e.key ≠ k) :
    Get c k = (none, some .notFound, c) := by
  unfold Get
  rw [h.mapGet_none_iff.mpr hm]

theorem Add_hit {c : Cache K V} {k : K} (v : V) {i : Nat}
    (hg : mapGet c.itemMap k = some i) :
    Add c k v = (some .notStored, c) := by
  unfold Add
  rw [hg]

theorem Add_miss {c : Cache K V} {k : K} (v : V)
    (hm : mapGet c.itemMap k = none) :
    Add c k v = (none, add c k v) := by
  unfold Add
  rw [hm]

theorem Remove_hit {c : Cache K V} {k : K} {e : Elem K V}
    (h : WF c) (he : e ∈ c.lruList) (hk : e.key = k) :
    Remove c k = (none, remove c e) := by
  have hg : mapGet c.itemMap k = some e.id := h.mapGet_some_iff.mpr ⟨e, he, hk, rfl⟩
  unfold Remove
  rw [hg]
  show (match c.lruList.find? (fun x => decide (x.id = e.id)) with
    | some x => (none, remove c x)
    | none => (none, c))
      = (none, remove c e)
  rw [find?_id_eq_some h.ids_nodup he]

theorem Remove_miss {c : Cache K V} {k : K}
    (hm : mapGet c.itemMap k = none) :
    Remove c k = (some .notFound, c) := by
  unfold Remove
  rw [hm]

/-! ### Invariant preservation -/

theorem WF.purge_wf {c : Cache K V} (h : WF c) : WF (Purge c) := by
  refine ⟨h.size_pos, by simp [Purge], by simp [Purge], by simp [Purge], ?_, by simp [Purge]⟩
  show ((List.length [] : Nat) : Int) ≤ c.size
  have := h.size_pos
  simp
  omega

/-- Filtering the cell with id `e.id` out of the list corresponds, on the
`(key, id)` projections, to filtering out the key `e.key` — provided id
and key agree on which cell they single out. -/
theorem map_proj_filter {l : List (Elem K V)} {e : Elem K V}
    (hiff : ∀ x ∈ l, (x.id = e.id ↔ x.key = e.key)) :
    (listRemove l e.id).map proj
      = (l.map proj).filter (fun p => decide (p.1 ≠ e.key)) := by
  induction l with
  | nil => rfl
  | cons a t ih =>
      have ha := hiff a (List.mem_cons_self a t)
      have iht := ih (fun x hx => hiff x (List.mem_cons_of_mem a hx))
      show ((a :: t).filter (fun x => decide (x.id ≠ e.id))).map proj
          = ((a :: t).map proj).filter (fun p => decide (p.1 ≠ e.key))
      rw [List.map_cons, List.filter_cons, List.filter_cons]
      by_cases hid : a.id = e.id
      · have hk : a.key = e.key := ha.mp hid
        rw [if_neg (by simpa using hid), if_neg (by simp [proj, hk])]
        exact iht
      · have hk : a.key ≠ e.key := fun hkk => hid (ha.mpr hkk)
        rw [if_pos (by simpa using hid), if_pos (by simp [proj, hk]),
          List.map_cons]
        exact congrArg (fun z => proj a :: z) iht

theorem WF.remove_mem {c : Cache K V} {e : Elem K V}
    (h : WF c) (he : e ∈ c.lruList) : WF (remove c e) := by
  have hiff : ∀ x ∈ c.lruList, (x.id = e.id ↔ x.key = e.key) := by
    intro x hx
    constructor
    · intro hid
      rw [h.id_inj hx he hid]
    · intro hk
      rw [h.key_inj hx he hk]
  have hsub : List.Sublist (listRemove c.lruList e.id) c.lruList :=
    List.filter_sublist _
  refine ⟨h.size_pos, ?_, ?_, ?_, ?_, ?_⟩
  · exact h.ids_nodup.sublist (hsub.map Elem.id)
  · exact h.keys_nodup.sublist (hsub.map Elem.key)
  · show (mapDelete c.itemMap e.key).Perm ((listRemove c.lruList e.id).map proj)
    rw [map_proj_filter hiff]
    exact h.map_perm.filter _
  · show ((listRemove c.lruList e.id).length : Int) ≤ c.size
    have h1 : (listRemove c.lruList e.id).length ≤ c.lruList.length :=
      hsub.length_le
    have h2 := h.len_le
    omega
  · intro x hx
    exact h.ids_lt x (hsub.subset hx)

theorem WF.add_wf {c : Cache K V} {k : K} (v : V)
    (h : WF c) (hm : mapGet c.itemMap k = none) : WF (add c k v) := by
  have hkabs : ∀ x ∈ c.lruList, x.key ≠ k := h.mapGet_none_iff.mp hm
  have hmabs : ∀ p ∈ c.itemMap, p.1 ≠ k := mapGet_eq_none_iff.mp hm
  by_cases hfull : c.size ≤ (c.lruList.length : Int)
  · have hlen : 1 ≤ c.lruList.length := by
      have := h.size_pos
      omega
    obtain hnil | ⟨t, e, hl⟩ := c.lruList.eq_nil_or_concat
    · rw [hnil] at hlen
      simp at hlen
    · rw [List.concat_eq_append] at hl
      rw [add_full k v hl h.ids_nodup hfull]
      have hndc : ((t ++ [e]).map Elem.id).Nodup := hl ▸ h.ids_nodup
      have hnkc : ((t ++ [e]).map Elem.key).Nodup := hl ▸ h.keys_nodup
      obtain ⟨hni, hndt⟩ := concat_map_nodup hndc
      obtain ⟨hnk, hnkt⟩ := concat_map_nodup hnkc
      have hmemE : e ∈ c.lruList := hl ▸ (List.mem_append_right t (by simp))
      have hdel2 : mapDelete (mapDelete c.itemMap e.key) k
          = mapDelete c.itemMap e.key := by
        apply mapDelete_eq_self
        intro p hp
        exact hmabs p (List.mem_of_mem_filter hp)
      have hprojl : c.lruList.map proj = t.map proj ++ [(e.key, e.id)] := by
        rw [hl, List.map_append]
        rfl
      have hdelperm : (mapDelete c.itemMap e.key).Perm (t.map proj) := by
        have h1 : (mapDelete c.itemMap e.key).Perm
            ((c.lruList.map proj).filter (fun p => decide (p.1 ≠ e.key))) :=
          h.map_perm.filter _
        have h2 : (c.lruList.map proj).filter (fun p => decide (p.1 ≠ e.key))
            = t.map proj := by
          rw [hprojl, List.filter_append]
          have ht : (t.map proj).filter (fun p => decide (p.1 ≠ e.key))
              = t.map proj := by
            rw [List.filter_eq_self]
            intro p hp
            obtain ⟨x, hx, hpx⟩ := List.mem_map.mp hp
            have hxk : x.key ≠ e.key := by
              intro hkk
              exact hnk (hkk ▸ List.mem_map.mpr ⟨x, hx, rfl⟩)
            have : p.1 = x.key := by rw [← hpx]; rfl
            simp [this, hxk]
          have he1 : ([((e.key : K), e.id)].filter
              (fun p => decide (p.1 ≠ e.key))) = [] := by simp
          rw [ht, he1, List.append_nil]
        exact h1.trans (h2 ▸ List.Perm.refl _)
      refine ⟨h.size_pos, ?_, ?_, ?_, ?_, ?_⟩
      · show ((⟨e.id, k, v⟩ :: t : List (Elem K V)).map Elem.id).Nodup
        rw [List.map_cons]
        exact List.nodup_cons.mpr ⟨hni, hndt⟩
      · show ((⟨e.id, k, v⟩ :: t : List (Elem K V)).map Elem.key).Nodup
        rw [List.map_cons]
        refine List.nodup_cons.mpr ⟨?_, hnkt⟩
        intro hkmem
        obtain ⟨x, hx, hpx⟩ := List.mem_map.mp hkmem
        exact hkabs x (hl ▸ List.mem_append_left [e] hx) hpx
      · show (mapSet (mapDelete c.itemMap e.key) k e.id).Perm
            ((⟨e.id, k, v⟩ :: t : List (Elem K V)).map proj)
        rw [List.map_cons]
        unfold mapSet
        rw [hdel2]
        exact hdelperm.cons _
      · show (((⟨e.id, k, v⟩ :: t : List (Elem K V)).length : Nat) : Int) ≤ c.size
        have : c.lruList.length = t.length + 1 := by
          rw [hl]
          simp
        have h2 := h.len_le
        simp only [List.length_cons]
        omega
      · intro x hx
        rcases List.mem_cons.mp hx with hx | hx
        · subst hx
          exact h.ids_lt e hmemE
        · exact h.ids_lt x (hl ▸ List.mem_append_left [e] hx)
  · rw [add_notfull k v (by omega)]
    have hdel : mapDelete c.itemMap k = c.itemMap := mapDelete_eq_self hmabs
    refine ⟨h.size_pos, ?_, ?_, ?_, ?_, ?_⟩
    · show ((⟨c.nextId, k, v⟩ :: c.lruList : List (Elem K V)).map Elem.id).Nodup
      rw [List.map_cons]
      refine List.nodup_cons.mpr ⟨?_, h.ids_nodup⟩
      intro hmem
      obtain ⟨x, hx, hpx⟩ := List.mem_map.mp hmem
      exact absurd hpx (Nat.ne_of_lt (h.ids_lt x hx))
    · show ((⟨c.nextId, k, v⟩ :: c.lruList : List (Elem K V)).map Elem.key).Nodup
      rw [List.map_cons]
      refine List.nodup_cons.mpr ⟨?_, h.keys_nodup⟩
      intro hmem
      obtain ⟨x, hx, hpx⟩ := List.mem_map.mp hmem
      exact hkabs x hx hpx
    · show (mapSet c.itemMap k c.nextId).Perm
          ((⟨c.nextId, k, v⟩ :: c.lruList : List (Elem K V)).map proj)
      unfold mapSet
      rw [hdel, List.map_cons]
      exact h.map_perm.cons _
    · show (((⟨c.nextId, k, v⟩ :: c.lruList : List (Elem K V)).length : Nat) : Int) ≤ c.size
      simp only [List.length_cons]
      omega
    · intro x hx
      rcases List.mem_cons.mp hx with hx | hx
      · subst hx
        show (c.nextId : Nat) < c.nextId + 1
        omega
      · have := h.ids_lt x hx
        show x.id < c.nextId + 1
        omega

theorem WF.removeBack_wf {c : Cache K V} (h : WF c) : WF (removeBack c) := by
  unfold removeBack
  obtain hnil | ⟨t, e, hl⟩ := c.lruList.eq_nil_or_concat
  · rw [hnil]
    exact h
  · rw [List.concat_eq_append] at hl
    rw [hl, List.getLast?_concat]
    exact h.remove_mem (hl ▸ List.mem_append_right t (by simp))

theorem removeBack_list {c : Cache K V}
    (hnd : (c.lruList.map Elem.id).Nodup) :
    (removeBack c).lruList = c.lruList.dropLast := by
  unfold removeBack
  obtain hnil | ⟨t, e, hl⟩ := c.lruList.eq_nil_or_concat
  · rw [hnil]
    show c.lruList = ([] : List (Elem K V)).dropLast
    exact hnil
  · rw [List.concat_eq_append] at hl
    rw [hl, List.getLast?_concat]
    show listRemove c.lruList e.id = (t ++ [e]).dropLast
    rw [hl, listRemove_concat (hl ▸ hnd), List.dropLast_concat]

theorem dropLast_eq_take' {α : Type} (l : List α) :
    l.dropLast = l.take (l.length - 1) := by
  obtain hnil | ⟨t, a, hl⟩ := l.eq_nil_or_concat
  · rw [hnil]
    rfl
  · rw [List.concat_eq_append] at hl
    rw [hl, List.dropLast_concat, List.length_append]
    simp [List.take_left]

theorem WF.removeBackN_wf {c : Cache K V} (h : WF c) (m : Nat) :
    WF (removeBackN c m) := by
  induction m generalizing c with
  | zero => exact h
  | succ m ih => exact ih h.removeBack_wf

theorem removeBackN_list {c : Cache K V} (h : WF c) (m : Nat) :
    (removeBackN c m).lruList = c.lruList.take (c.lruList.length - m) := by
  induction m generalizing c with
  | zero =>
      show c.lruList = c.lruList.take (c.lruList.length - 0)
      rw [Nat.sub_zero, List.take_length]
  | succ m ih =>
      show (removeBackN (removeBack c) m).lruList = _
      rw [ih h.removeBack_wf, removeBack_list h.ids_nodup, dropLast_eq_take',
        List.length_take, List.take_take]
      congr 1
      omega

theorem SetSize_nonpos (c : Cache K V) {n : Int} (h : n ≤ 0) :
    SetSize c n = c := by
  unfold SetSize
  rw [if_pos h]

theorem SetSize_size (c : Cache K V) {n : Int} (h : 0 < n) :
    (SetSize c n).size = n := by
  unfold SetSize
  rw [if_neg (by omega)]

theorem SetSize_list {c : Cache K V} {n : Int} (h : WF c) (hn : 0 < n) :
    (SetSize c n).lruList = c.lruList.take n.toNat := by
  unfold SetSize
  rw [if_neg (by omega)]
  show (removeBackN c ((c.lruList.length : Int) - n).toNat).lruList = _
  rcases le_or_lt (n : Int) (c.lruList.length : Int) with hle | hlt
  · rw [removeBackN_list h]
    congr 1
    omega
  · have h0 : ((c.lruList.length : Int) - n).toNat = 0 := by omega
    rw [h0]
    show c.lruList = c.lruList.take n.toNat
    rw [List.take_of_length_le (by omega)]

theorem WF.setSize_wf {c : Cache K V} (h : WF c) (n : Int) :
    WF (SetSize c n) := by
  rcases le_or_lt n 0 with hn | hn
  · rw [SetSize_nonpos c hn]
    exact h
  · have hw := h.removeBackN_wf (((c.lruList.length : Int) - n).toNat)
    have hlist := SetSize_list h hn
    unfold SetSize at hlist ⊢
    rw [if_neg (by omega)] at hlist ⊢
    refine ⟨?_, hw.ids_nodup, hw.keys_nodup, hw.map_perm, ?_, hw.ids_lt⟩
    · show (1 : Int) ≤ n
      omega
    show (((removeBackN c ((c.lruList.length : Int) - n).toNat).lruList.length : Nat) : Int) ≤ n
    rw [show (removeBackN c ((c.lruList.length : Int) - n).toNat).lruList
          = c.lruList.take n.toNat from hlist]
    rw [List.length_take]
    omega

theorem WF.set_wf {c : Cache K V} (h : WF c) (k : K) (v : V) :
    WF (Set c k v).2 := by
  rcases hg : mapGet c.itemMap k with _ | i
  · rw [Set_miss v hg]
    exact h.add_wf v hg
  · obtain ⟨e, he, hk, hi⟩ := h.mapGet_some_iff.mp hg
    rw [Set_hit h he hk]
    apply h.replace_list
    have hperm := (perm_cons_listRemove h.ids_nodup he).map proj
    exact hperm.symm

theorem WF.get_wf {c : Cache K V} (h : WF c) (k : K) :
    WF (Get c k).2.2 := by
  rcases hg : mapGet c.itemMap k with _ | i
  · rw [Get_miss h (h.mapGet_none_iff.mp hg)]
    exact h
  · obtain ⟨e, he, hk, hi⟩ := h.mapGet_some_iff.mp hg
    rw [Get_hit h he hk]
    apply h.replace_list
    exact ((perm_cons_listRemove h.ids_nodup he).map proj).symm

theorem WF.addPub_wf {c : Cache K V} (h : WF c) (k : K) (v : V) :
    WF (Add c k v).2 := by
  rcases hg : mapGet c.itemMap k with _ | i
  · rw [Add_miss v hg]
    exact h.add_wf v hg
  · rw [Add_hit v hg]
    exact h

theorem WF.removePub_wf {c : Cache K V} (h : WF c) (k : K) :
    WF (Remove c k).2 := by
  rcases hg : mapGet c.itemMap k with _ | i
  · rw [Remove_miss hg]
    exact h
  · obtain ⟨e, he, hk, hi⟩ := h.mapGet_some_iff.mp hg
    rw [Remove_hit h he hk]
    exact h.remove_mem he

theorem WF.applyOp_wf {c : Cache K V} (h : WF c) (op : Op K V) :
    WF (applyOp c op) := by
  cases op with
  | set k v => exact h.set_wf k v
  | addOp k v => exact h.addPub_wf k v
  | get k => exact h.get_wf k
  | removeOp k => exact h.removePub_wf k
  | setSize n => exact h.setSize_wf n
  | purge => exact h.purge_wf

theorem wf_new {n : Int} {c : Cache K V} (h : New K V n = some c) : WF c := by
  unfold New at h
  by_cases hn : n ≤ 0
  · rw [if_pos hn] at h
    cases h
  · rw [if_neg hn] at h
    cases h
    refine ⟨?_, by simp, by simp, by simp, ?_, by simp⟩
    · show (1 : Int) ≤ n
      omega
    · show ((List.length ([] : List (Elem K V)) : Nat) : Int) ≤ n
      simp
      omega

theorem wf_run {c : Cache K V} (h : WF c) (ops : List (Op K V)) :
    WF (run c ops) := by
  induction ops generalizing c with
  | nil => exact h
  | cons op ops ih => exact ih (h.applyOp_wf op)

theorem Reachable.wf {c : Cache K V} (h : Reachable c) : WF c := by
  obtain ⟨n, c₀, ops, hnew, rfl⟩ := h
  exact wf_run (wf_new hnew) ops

/-! ### Further derived facts used by the verified statements -/

theorem Set_fst (c : Cache K V) (k : K) (v : V) : (Set c k v).1 = none := by
  unfold Set
  cases mapGet c.itemMap k <;> rfl

/-- After `add` on an absent key, the freshly written cell — key `k`,
value `v` — is at the front of the recency list. -/
theorem add_front {c : Cache K V} (h : WF c) {k : K} (v : V)
    (hm : mapGet c.itemMap k = none) :
    ∃ e' t, (add c k v).lruList = e' :: t ∧ e'.key = k ∧ e'.val = v := by
  by_cases hfull : c.size ≤ (c.lruList.length : Int)
  · have hlen1 : 1 ≤ c.lruList.length := by
      have := h.size_pos
      omega
    obtain hnil | ⟨t, e, hl⟩ := c.lruList.eq_nil_or_concat
    · rw [hnil] at hlen1
      simp at hlen1
    · rw [List.concat_eq_append] at hl
      rw [add_full k v hl h.ids_nodup hfull]
      exact ⟨_, t, rfl, rfl, rfl⟩
  · rw [add_notfull k v (by omega)]
    exact ⟨_, c.lruList, rfl, rfl, rfl⟩

/-- After any `Set`, the cell holding `(k, v)` is at the front. -/
theorem Set_front {c : Cache K V} (h : WF c) (k : K) (v : V) :
    ∃ e' t, (Set c k v).2.lruList = e' :: t ∧ e'.key = k ∧ e'.val = v := by
  rcases hg : mapGet c.itemMap k with _ | i
  · rw [Set_miss v hg]
    exact add_front h v hg
  · obtain ⟨e, he, hk, hi⟩ := h.mapGet_some_iff.mp hg
    rw [Set_hit h he hk]
    exact ⟨_, _, rfl, hk, rfl⟩

theorem reachable_fullCache2 : Reachable fullCache2 :=
  ⟨2, initCache2, [.set 0 10, .set 1 20], rfl, rfl⟩

/-! ### The verified claims -/

/-- C6: when key `k` is already present, `Add(k, v)` returns the
`ErrNotStored` error and performs no mutation whatsoever: the cache state —
stored value, entry count and recency order included — is returned
unchanged. -/
theorem C6_add_present_notStored (c : Cache K V) (k : K) (v : V) {i : Nat}
    (hg : mapGet c.itemMap k = some i) :
    Add c k v = (some CacheError.notStored, c) :=
  Add_hit v hg

theorem C6_witness :
    mapGet (run initCache2 [.addOp 0 1]).itemMap 0 = some 0
    ∧ Add (run initCache2 [.addOp 0 1]) 0 2
        = (some CacheError.notStored, run initCache2 [.addOp 0 1])
    ∧ (Get (Add (run initCache2 [.addOp 0 1]) 0 2).2 0).1 = some 1 :=
  ⟨by decide, C6_add_present_notStored (run initCache2 [.addOp 0 1]) 0 2 (i := 0) (by decide),
   by decide⟩

/-- C8: `Purge` empties the cache (`Len = 0`) without touching the
configured capacity (`Size` unchanged), and any subsequent `Get` — in
particular on a key present before the purge — misses with `ErrNotFound`. -/
theorem C8_purge_clears (c : Cache K V) (k : K) :
    Len (Purge c) = 0 ∧ Size (Purge c) = Size c
    ∧ Get (Purge c) k = (none, some CacheError.notFound, Purge c) :=
  ⟨rfl, rfl, rfl⟩

/-- C9: `New(size)` panics (modelled by `none`) exactly when `size ≤ 0` —
a contract violation, not an error return — and for every positive size it
yields a cache whose configured capacity is that size. -/
theorem C9_new_panics_iff_nonpos (K V : Type) [DecidableEq K] (n : Int) :
    (New K V n = none ↔ n ≤ 0)
    ∧ (0 < n → ∃ c : Cache K V, New K V n = some c ∧ Size c = n) := by
  constructor
  · unfold New
    by_cases h : n ≤ 0
    · rw [if_pos h]
      simp [h]
    · rw [if_neg h]
      simp [h]
  · intro hn
    refine ⟨{ size := n, lruList := [], itemMap := [], nextId := 0 }, ?_, rfl⟩
    unfold New
    rw [if_neg (by omega)]

theorem C9_witness :
    New Nat Int 0 = none
    ∧ (0 < (1 : Int)
        ∧ ∃ c : Cache Nat Int, New Nat Int 1 = some c ∧ Size c = 1) :=
  ⟨(C9_new_panics_iff_nonpos Nat Int 0).1.mpr (by decide),
   by decide, (C9_new_panics_iff_nonpos Nat Int 1).2 (by decide)⟩

/-- C10: a freshly constructed cache of positive size `n` is empty: `Len`
is `0`, `Size` is `n`, and `Get` misses with `ErrNotFound` on every key. -/
theorem C10_new_is_empty {K V : Type} [DecidableEq K] {n : Int}
    {c : Cache K V} (hn : 0 < n) (h : New K V n = some c) :
    Len c = 0 ∧ Size c = n
    ∧ ∀ k, Get c k = (none, some CacheError.notFound, c) := by
  unfold New at h
  rw [if_neg (by omega)] at h
  cases h
  exact ⟨rfl, rfl, fun _ => rfl⟩

theorem C10_witness :
    (0 : Int) < 2 ∧ New Nat Int 2 = some initCache2
    ∧ (Len initCache2 = 0 ∧ Size initCache2 = 2
        ∧ ∀ k, Get initCache2 k = (none, some CacheError.notFound, initCache2)) :=
  ⟨by decide, rfl, C10_new_is_empty (by decide) rfl⟩

/-- C2: every touching operation places the touched key's cell at the head
of the recency list — `Get` on a hit repositions the cell, `Set` and a
storing `Add` put the written key in front — and (for `Get`/`Set` hits)
leaves the other cells in their previous relative order, so along any
operation sequence the list stays ordered by recency of last touch with
the longest-untouched entry at the tail; in the concrete capacity-2 run
`Set(a,1)`, `Set(b,2)`, `Get(a)`, `Set(c,3)` the key `b` is evicted while
`Get(a)` yields `1`, `Get(c)` yields `3` and `Get(b)` misses with
`ErrNotFound`. -/
theorem C2_recency_reflects_touch_order {K V : Type} [DecidableEq K] :
    (∀ (c : Cache K V) (e : Elem K V) (k : K), Reachable c → e ∈ c.lruList →
        e.key = k →
        (Get c k).2.2.lruList = e :: listRemove c.lruList e.id)
    ∧ (∀ (c : Cache K V) (e : Elem K V) (k : K) (v : V), Reachable c →
        e ∈ c.lruList → e.key = k →
        (Set c k v).2.lruList = { e with val := v } :: listRemove c.lruList e.id)
    ∧ (∀ (c : Cache K V) (k : K) (v : V), Reachable c →
        ∃ e' t, (Set c k v).2.lruList = e' :: t ∧ e'.key = k ∧ e'.val = v)
    ∧ (∀ (c : Cache K V) (k : K) (v : V), Reachable c →
        mapGet c.itemMap k = none →
        ∃ e' t, (Add c k v).2.lruList = e' :: t ∧ e'.key = k ∧ e'.val = v)
    ∧ (∀ c₀ : Cache Nat Int, New Nat Int 2 = some c₀ →
        (Get (run c₀ [.set 0 1, .set 1 2, .get 0, .set 2 3]) 0).1 = some 1
        ∧ (Get (run c₀ [.set 0 1, .set 1 2, .get 0, .set 2 3]) 2).1 = some 3
        ∧ (Get (run c₀ [.set 0 1, .set 1 2, .get 0, .set 2 3]) 1).2.1
            = some CacheError.notFound
        ∧ ∀ e ∈ (run c₀ [.set 0 1, .set 1 2, .get 0, .set 2 3]).lruList,
            e.key ≠ 1) := by
  refine ⟨?_, ?_, ?_, ?_, ?_⟩
  · intro c e k hr he hk
    rw [Get_hit hr.wf he hk]
  · intro c e k v hr he hk
    rw [Set_hit hr.wf he hk]
  · intro c k v hr
    exact Set_front hr.wf k v
  · intro c k v hr hm
    rw [Add_miss v hm]
    exact add_front hr.wf v hm
  · intro c₀ h
    have h' : (some { size := 2, lruList := [], itemMap := [], nextId := 0 }
        : Option (Cache Nat Int)) = some c₀ := h
    obtain rfl : ({ size := 2, lruList := [], itemMap := [], nextId := 0 }
        : Cache Nat Int) = c₀ := by injection h'
    exact ⟨by decide, by decide, by decide, by decide⟩

theorem C2_witness :
    ((Get fullCache2 1).2.2.lruList
        = ⟨1, 1, 20⟩ :: listRemove fullCache2.lruList 1)
    ∧ ((Set fullCache2 1 21).2.lruList
        = ⟨1, 1, 21⟩ :: listRemove fullCache2.lruList 1)
    ∧ (∃ e' t, (Set fullCache2 3 30).2.lruList = e' :: t
        ∧ e'.key = 3 ∧ e'.val = 30)
    ∧ (∃ e' t, (Add fullCache2 4 40).2.lruList = e' :: t
        ∧ e'.key = 4 ∧ e'.val = 40)
    ∧ ((Get (run initCache2 [.set 0 1, .set 1 2, .get 0, .set 2 3]) 0).1 = some 1
      ∧ (Get (run initCache2 [.set 0 1, .set 1 2, .get 0, .set 2 3]) 2).1 = some 3
      ∧ (Get (run initCache2 [.set 0 1, .set 1 2, .get 0, .set 2 3]) 1).2.1
          = some CacheError.notFound
      ∧ ∀ e ∈ (run initCache2 [.set 0 1, .set 1 2, .get 0, .set 2 3]).lruList,
          e.key ≠ 1) := by
  obtain ⟨h1, h2, h3, h4, h5⟩ := C2_recency_reflects_touch_order (K := Nat) (V := Int)
  exact ⟨h1 fullCache2 ⟨1, 1, 20⟩ 1 reachable_fullCache2 (by decide) rfl,
    h2 fullCache2 ⟨1, 1, 20⟩ 1 21 reachable_fullCache2 (by decide) rfl,
    h3 fullCache2 3 30 reachable_fullCache2,
    h4 fullCache2 4 40 reachable_fullCache2 (by decide),
    h5 initCache2 rfl⟩

/-- C3: in every reachable state the recency list and the index agree in
cardinality (`Len = |itemMap|`), the entry count never exceeds the
configured capacity (`Len ≤ Size`), and every index binding `k ↦ i` points
to a list cell whose stored key is exactly `k`. -/
theorem C3_structural_invariant {K V : Type} [DecidableEq K] {c : Cache K V}
    (hr : Reachable c) :
    (c.itemMap.length : Int) = Len c
    ∧ Len c ≤ Size c
    ∧ ∀ k i, mapGet c.itemMap k = some i →
        ∃ e ∈ c.lruList, e.id = i ∧ e.key = k := by
  have h := hr.wf
  refine ⟨?_, h.len_le, ?_⟩
  · unfold Len
    rw [h.len_map]
  · intro k i hg
    obtain ⟨e, he, hk, hi⟩ := h.mapGet_some_iff.mp hg
    exact ⟨e, he, hi, hk⟩

/-- C1: inserting an absent key into a cache at full capacity — the check
is `Len >= Size`, so exact fullness already evicts — removes exactly the
back (least-recently-touched) cell and nothing else, and places the new
key/value at the front, for `Set` and for `Add` alike; the count stays at
the capacity. -/
theorem C1_full_insert_evicts_back {K V : Type} [DecidableEq K]
    {c : Cache K V} (k : K) (v : V) (hr : Reachable c)
    (hfull : Len c = Size c) (habs : ∀ e ∈ c.lruList, e.key ≠ k) :
    (Set c k v).2.lruList.map (fun e => (e.key, e.val))
        = (k, v) :: c.lruList.dropLast.map (fun e => (e.key, e.val))
    ∧ (Add c k v).2.lruList.map (fun e => (e.key, e.val))
        = (k, v) :: c.lruList.dropLast.map (fun e => (e.key, e.val))
    ∧ Len (Set c k v).2 = Size c
    ∧ Len (Add c k v).2 = Size c := by
  have h := hr.wf
  have hm : mapGet c.itemMap k = none := h.mapGet_none_iff.mpr habs
  have hfull' : c.size ≤ (c.lruList.length : Int) := by
    unfold Len Size at hfull
    omega
  have hlen1 : 1 ≤ c.lruList.length := by
    have := h.size_pos
    omega
  obtain hnil | ⟨t, e, hl⟩ := c.lruList.eq_nil_or_concat
  · rw [hnil] at hlen1
    simp at hlen1
  · rw [List.concat_eq_append] at hl
    have hadd := add_full k v hl h.ids_nodup hfull'
    rw [Set_miss v hm, Add_miss v hm, hadd]
    have hmap : ((⟨e.id, k, v⟩ :: t : List (Elem K V)).map (fun e => (e.key, e.val)))
        = (k, v) :: c.lruList.dropLast.map (fun e => (e.key, e.val)) := by
      rw [hl, List.dropLast_concat, List.map_cons]
    have hcount : ((⟨e.id, k, v⟩ :: t : List (Elem K V)).length : Int) = c.size := by
      have h1 : c.lruList.length = t.length + 1 := by
        rw [hl]
        simp
      unfold Len Size at hfull
      simp only [List.length_cons]
      omega
    exact ⟨hmap, hmap, hcount, hcount⟩

theorem C1_witness :
    Len fullCache2 = Size fullCache2
    ∧ (∀ e ∈ fullCache2.lruList, e.key ≠ 5)
    ∧ ((Set fullCache2 5 7).2.lruList.map (fun e => (e.key, e.val))
        = (5, 7) :: fullCache2.lruList.dropLast.map (fun e => (e.key, e.val))
      ∧ (Add fullCache2 5 7).2.lruList.map (fun e => (e.key, e.val))
        = (5, 7) :: fullCache2.lruList.dropLast.map (fun e => (e.key, e.val))
      ∧ Len (Set fullCache2 5 7).2 = Size fullCache2
      ∧ Len (Add fullCache2 5 7).2 = Size fullCache2) :=
  ⟨by decide, by decide,
   C1_full_insert_evicts_back 5 7 reachable_fullCache2 (by decide) (by decide)⟩

/-- C4: `SetSize(n)` with `n ≤ 0` is a complete no-op; with `n > 0` it sets
the capacity to `n` and keeps exactly the first (most recent) `n` cells of
the recency list — evicting the `Len - n` least-recent ones from the back
when the count exceeded `n`, so that the count then equals `n`. -/
theorem C4_setSize_truncates {K V : Type} [DecidableEq K] {c : Cache K V}
    (n : Int) (hr : Reachable c) :
    (n ≤ 0 → SetSize c n = c)
    ∧ (0 < n → Size (SetSize c n) = n
        ∧ (SetSize c n).lruList = c.lruList.take n.toNat
        ∧ (n ≤ Len c → Len (SetSize c n) = n)) := by
  have h := hr.wf
  refine ⟨fun hn => SetSize_nonpos c hn,
    fun hn => ⟨SetSize_size c hn, SetSize_list h hn, ?_⟩⟩
  intro hle
  unfold Len at hle ⊢
  rw [SetSize_list h hn, List.length_take, Nat.min_eq_left (by omega)]
  omega

theorem C4_witness :
    SetSize fullCache2 0 = fullCache2
    ∧ Size (SetSize fullCache2 1) = 1
    ∧ (SetSize fullCache2 1).lruList = fullCache2.lruList.take (1 : Int).toNat
    ∧ Len (SetSize fullCache2 1) = 1 := by
  obtain ⟨hs, hl, hlen⟩ := (C4_setSize_truncates 1 reachable_fullCache2).2 (by decide)
  exact ⟨(C4_setSize_truncates 0 reachable_fullCache2).1 (by decide),
    hs, hl, hlen (by decide)⟩

/-- C5: `Set(k, v)` never errs, and an immediate `Get(k)` hits, returning
exactly `v` with no error — whether `k` was previously present (overwrite
and touch) or absent (insert at front, evicting the back at capacity). -/
theorem C5_set_then_get {K V : Type} [DecidableEq K] {c : Cache K V}
    (k : K) (v : V) (hr : Reachable c) :
    (Set c k v).1 = none
    ∧ (Get (Set c k v).2 k).1 = some v
    ∧ (Get (Set c k v).2 k).2.1 = none := by
  have h := hr.wf
  have h' := h.set_wf k v
  obtain ⟨e', t, hl, hk, hv⟩ := Set_front h k v
  have he' : e' ∈ (Set c k v).2.lruList := by
    rw [hl]
    exact List.mem_cons_self _ _
  have hget := Get_hit h' he' hk
  rw [hget, hv]
  exact ⟨Set_fst c k v, rfl, rfl⟩

theorem C5_witness :
    (Set fullCache2 3 99).1 = none
    ∧ (Get (Set fullCache2 3 99).2 3).1 = some 99
    ∧ (Get (Set fullCache2 3 99).2 3).2.1 = none :=
  C5_set_then_get 3 99 reachable_fullCache2

/-- C7: on a present key, `Remove(k)` succeeds (no error) and detaches the
cell from list and index, after which `Get(k)` misses with `ErrNotFound`
and a second `Remove(k)` returns `ErrNotFound`; on an absent key,
`Remove(k)` returns `ErrNotFound` and mutates nothing. -/
theorem C7_remove_detaches {K V : Type} [DecidableEq K] {c : Cache K V}
    (hr : Reachable c) (k : K) :
    (∀ e ∈ c.lruList, e.key = k →
      (Remove c k).1 = none
      ∧ Get (Remove c k).2 k = (none, some CacheError.notFound, (Remove c k).2)
      ∧ (Remove (Remove c k).2 k).1 = some CacheError.notFound)
    ∧ (mapGet c.itemMap k = none → Remove c k = (some CacheError.notFound, c)) := by
  have h := hr.wf
  refine ⟨?_, Remove_miss⟩
  intro e he hk
  have hrem := Remove_hit h he hk
  rw [hrem]
  have h' : WF (remove c e) := h.remove_mem he
  have habs : ∀ x ∈ (remove c e).lruList, x.key ≠ k := by
    intro x hx hxk
    have hxl : x ∈ c.lruList := List.mem_of_mem_filter hx
    have hxe : x = e := h.key_inj hxl he (hk ▸ hxk)
    have hxid := (List.mem_filter.mp hx).2
    rw [hxe] at hxid
    simp at hxid
  refine ⟨rfl, ?_, ?_⟩
  · exact Get_miss h' habs
  · rw [Remove_miss (h'.mapGet_none_iff.mpr habs)]

theorem C7_witness :
    ((Remove fullCache2 0).1 = none
      ∧ Get (Remove fullCache2 0).2 0
          = (none, some CacheError.notFound, (Remove fullCache2 0).2)
      ∧ (Remove (Remove fullCache2 0).2 0).1 = some CacheError.notFound)
    ∧ Remove fullCache2 9 = (some CacheError.notFound, fullCache2) :=
  ⟨(C7_remove_detaches reachable_fullCache2 0).1 ⟨0, 0, 10⟩ (by decide) (by decide),
   (C7_remove_detaches reachable_fullCache2 9).2 (by decide)⟩

theorem C3_witness :
    (fullCache2.itemMap.length : Int) = Len fullCache2
    ∧ Len fullCache2 ≤ Size fullCache2
    ∧ ∃ e ∈ fullCache2.lruList, e.id = 1 ∧ e.key = 1 := by
  obtain ⟨h1, h2, h3⟩ := C3_structural_invariant reachable_fullCache2
  exact ⟨h1, h2, h3 1 1 (by decide)⟩

end Lrucache
